import Mathlib

/-!
Verification of the rule-classification and configuration-resolution core of
the adopt-ruff repository, as a shallow embedding in Lean.

Embedding conventions:
- Python `set[Rule]` becomes `Finset Rule` (the derived structural equality on
  `Rule` matches the field-wise equality of frozen pydantic models);
  a Python iterable of rules becomes a `List Rule`.
- Python strings are Lean `String`s; character-level predicates and the
  lexicographic comparison used by `sorted` operate on `String.data`
  (the underlying `List Char`), restricted to ASCII semantics
  (`Char.isAlpha`, `Char.isDigit`), which is how rule codes are written.
- Code that can raise (`KeyError` from a dict lookup) returns an `Option`,
  with `none` standing for the raised exception.
- `more_itertools.bucket` iterated as in `map_rules_to_violations` yields the
  distinct violation codes in first-appearance order, and indexing the bucket
  by a code yields the violations with that code in input order; both are
  modelled directly below (`distinct_codes`, `List.filter`).
-/

namespace AdoptRuff

/-- Model of `FixAvailability` from `adopt_ruff/models/rule.py`. The pydantic
enum stores distinct string values, so a plain sum type with structural
equality is an isomorphic model. -/
inductive FixAvailability where
  | ALWAYS
  | SOMETIMES
  | NOT
deriving DecidableEq, Repr

/-- Model of `Rule` from `adopt_ruff/models/rule.py`: a frozen pydantic model
whose equality is field-wise (pydantic compares every field, not only the
code). -/
structure Rule where
  name : String
  code : String
  linter : String
  summary : String
  message_formats : List String
  fix : FixAvailability
  explanation : String
  preview : Bool
deriving DecidableEq, Repr

/-- Model of the `Rule.is_fixable` property. The model config sets
`use_enum_values=True`, so the validated `self.fix` holds the enum member's
string value, and the source's membership test of `self.fix` in the set of
the two enum members ALWAYS and SOMETIMES compares a string against enum
members: it is false for every rule. -/
def Rule.is_fixable (_ : Rule) : Bool := false

/-- The comparison `rule.fix == FixAvailability.ALWAYS` in `autofixable_rules`
in `adopt_ruff/main.py`: under `use_enum_values=True` the stored fix value is
a string, never equal to the enum member, so the comparison is false for every
rule. -/
def fix_eq_always (_ : Rule) : Bool := false

/-- Model of `Location` from `adopt_ruff/models/ruff_output.py`. -/
structure Location where
  column : Int
  row : Int
deriving DecidableEq, Repr

/-- Model of `Edit` from `adopt_ruff/models/ruff_output.py`. -/
structure Edit where
  content : String
  end_location : Location
  location : Location
deriving DecidableEq, Repr

/-- Model of `Fix` from `adopt_ruff/models/ruff_output.py`. -/
structure Fix where
  applicability : String
  edits : List Edit
  message : String
deriving DecidableEq, Repr

/-- Model of `Violation` from `adopt_ruff/models/ruff_output.py`. The `cell`
field is annotated `None` in the source and is modelled as `Unit`. -/
structure Violation where
  cell : Unit
  code : String
  end_location : Location
  filename : String
  fix : Option Fix
  location : Location
  message : String
  noqa_row : Int
  url : String
deriving DecidableEq, Repr

/-- Model of `respected_rules` from `adopt_ruff/main.py`: the set of catalog
rules whose code is not among the violated codes and that are not already
configured. -/
def respected_rules (violations : List Violation) (rules : List Rule)
    (configured_rules : Finset Rule) : Finset Rule :=
  rules.toFinset.filter fun rule =>
    rule.code ∉ violations.map Violation.code ∧ rule ∉ configured_rules

/-- Model of `autofixable_rules` from `adopt_ruff/main.py`. The two trailing
booleans mirror the `include_sometimes_fixable` and `include_preview`
parameters, and the two conditional expressions mirror the Python
conditional expressions in the set comprehension. Note that the
`rule.is_fixable` conjunct is false for every rule (see `Rule.is_fixable`),
so the comprehension is empty on every input. -/
def autofixable_rules (violations : List Violation) (rules : List Rule)
    (configured_rules : Finset Rule)
    (include_sometimes_fixable include_preview : Bool) : Finset Rule :=
  rules.toFinset.filter fun rule =>
    rule.code ∈ violations.map Violation.code ∧
    rule ∉ configured_rules ∧
    rule.is_fixable = true ∧
    (if include_preview then true else !rule.preview) = true ∧
    (if include_sometimes_fixable then true else fix_eq_always rule) = true

/-- The distinct violation codes in first-appearance order: the keys produced
by iterating the `more_itertools.bucket` object in `map_rules_to_violations`. -/
def distinct_codes : List Violation → List String
  | [] => []
  | v :: rest => v.code :: (distinct_codes rest).filter fun c => decide (c ≠ v.code)

/-- The dict `code_to_rule` built in `map_rules_to_violations` (and in
`_parse_raw_rules`): a dict comprehension over the rules keeps, for each code,
the last rule with that code in iteration order; indexing is a lookup that can
fail (`KeyError`), hence `Option`. -/
def code_to_rule (rules : List Rule) (code : String) : Option Rule :=
  (rules.filter fun rule => decide (rule.code = code)).getLast?

/-- The dict comprehension of `map_rules_to_violations`, one entry per distinct
violation code: `none` models the `KeyError` raised when a code has no matching
rule in the catalog. -/
def bucket_pairs (rules : List Rule) (violations : List Violation) :
    List String → Option (List (Rule × List Violation))
  | [] => some []
  | code :: rest =>
    match code_to_rule rules code, bucket_pairs rules violations rest with
    | some rule, some pairs =>
        some ((rule, violations.filter fun v => decide (v.code = code)) :: pairs)
    | _, _ => none

/-- Model of `map_rules_to_violations` from `adopt_ruff/main.py`. -/
def map_rules_to_violations (rules : List Rule) (violations : List Violation) :
    Option (List (Rule × List Violation)) :=
  bucket_pairs rules violations (distinct_codes violations)

/-- Model of `violated_rules` from `adopt_ruff/main.py`. Only membership in the
set comprehension `ignore_codes` is consumed, so the excluded iterable is
modelled as a `Finset Rule` and `ignore_codes` as its image under the code
field. -/
def violated_rules (violations : List Violation) (rules : List Rule)
    (excluded_rules : Finset Rule) : Option (List (Rule × List Violation)) :=
  (map_rules_to_violations rules violations).map
    (List.filter fun p => decide (p.1.code ∉ excluded_rules.image Rule.code))

/-- The applicable rules paired with their violation counts, as computed inside
`run` in `adopt_ruff/main.py`: `violated_rules` is called with the chained
iterable of the configured, respected and autofixable rules (modelled as their
union, since only the set of their codes is consumed), and each remaining rule
is paired with `len` of its violations (`rule_to_violation_count`). -/
def run_applicable_pairs (rules : List Rule) (violations : List Violation)
    (configured_rules : Finset Rule)
    (include_sometimes_fixable include_preview : Bool) :
    Option (List (Rule × Nat)) :=
  (violated_rules violations rules
      (configured_rules ∪
        respected_rules violations rules configured_rules ∪
        autofixable_rules violations rules configured_rules
          include_sometimes_fixable include_preview)).map
    (List.map fun p => (p.1, p.2.length))

/-- The sort key used for applicable rules in `run`:
`(rule_to_violation_count[rule], rule.linter, rule.code)`, with the strings
taken as their character lists. -/
def app_key (p : Rule × Nat) : Nat × List Char × List Char :=
  (p.2, p.1.linter.data, p.1.code.data)

/-- One level of a lexicographic comparison: strictly below on this component,
or equal here and below on the remaining components. -/
def lexStep {α : Type} [LT α] (x y : α) (rest : Prop) : Prop :=
  x < y ∨ (x = y ∧ rest)

/-- Lexicographic order on the applicable sort key: ascending violation count,
ties broken by linter name, then by code (Python compares the key tuples
componentwise, and compares strings lexicographically by code point; the
innermost `True` makes the comparison reflexive, as a non-strict order). -/
def app_le (p q : Rule × Nat) : Prop :=
  lexStep (app_key p).1 (app_key q).1
    (lexStep (app_key p).2.1 (app_key q).2.1
      (lexStep (app_key p).2.2 (app_key q).2.2 True))

instance (x y : Nat) (r : Prop) [Decidable r] : Decidable (lexStep x y r) := by
  unfold lexStep
  infer_instance

instance (x y : List Char) (r : Prop) [Decidable r] : Decidable (lexStep x y r) := by
  unfold lexStep
  infer_instance

instance : DecidableRel app_le := fun p q => by
  unfold app_le
  infer_instance

/-- The sorted list of applicable rules as produced by `run`
(`sorted(violated_rule_to_violations.keys(), key=...)`): Python `sorted` is a
stable sort by the key order, modelled by the stable `List.insertionSort`. -/
def run_applicable (rules : List Rule) (violations : List Violation)
    (configured_rules : Finset Rule)
    (include_sometimes_fixable include_preview : Bool) : Option (List Rule) :=
  (run_applicable_pairs rules violations configured_rules
      include_sometimes_fixable include_preview).map
    fun pairs => (List.insertionSort app_le pairs).map Prod.fst

/-- `MIN_RULE_CODE_LEN` from `adopt_ruff/models/ruff_config.py`. -/
def MIN_RULE_CODE_LEN : Nat := 4

/-- Python `str.isalpha` restricted to ASCII: nonempty and all characters
alphabetic (rule codes and category tokens are ASCII). -/
def pyIsAlpha (s : String) : Bool :=
  !s.data.isEmpty && s.data.all Char.isAlpha

/-- Python `str.isnumeric` restricted to ASCII: nonempty and all characters
digits. -/
def pyIsNumeric (s : String) : Bool :=
  !s.data.isEmpty && s.data.all Char.isDigit

/-- Drops `pre` from the front of `cs` when it matches, character by
character; `none` when `pre` does not match. -/
def dropMatching : List Char → List Char → Option (List Char)
  | cs, [] => some cs
  | [], _ :: _ => none
  | c :: cs, d :: ds => if d = c then dropMatching cs ds else none

/-- Python `code.removeprefix(category)`: the code with the category stripped
from the front when it matches, the code unchanged otherwise. -/
def codeRemainder (code category : String) : String :=
  String.mk ((dropMatching code.data category.data).getD code.data)

/-- The loop body of `_parse_raw_rules` from `adopt_ruff/models/ruff_config.py`
for one raw code token: a purely-alphabetic or short token is a category and
contributes every rule whose code with that category stripped is numeric; any
other token is an exact code looked up in `code_to_rule`, where a missing key
raises (`none`). -/
def resolve_code (rules : List Rule) (code : String) : Option (Finset Rule) :=
  if pyIsAlpha code = true ∨ code.length < MIN_RULE_CODE_LEN then
    some (rules.filter fun rule =>
      pyIsNumeric (codeRemainder rule.code code)).toFinset
  else
    (code_to_rule rules code).map fun rule => {rule}

/-- The loop of `_parse_raw_rules`, accumulating `result`: the first token that
raises makes the whole call raise. -/
def parseFold (rules : List Rule) : List String → Finset Rule → Option (Finset Rule)
  | [], result => some result
  | code :: rest, result =>
    match resolve_code rules code with
    | none => none
    | some s => parseFold rules rest (result ∪ s)

/-- Model of `_parse_raw_rules` from `adopt_ruff/models/ruff_config.py`: the
literal token ALL short-circuits to the whole catalog; otherwise each token is
resolved and the results are unioned. -/
def _parse_raw_rules (raw_codes : List String) (rules : List Rule) :
    Option (Finset Rule) :=
  if "ALL" ∈ raw_codes then some rules.toFinset
  else parseFold rules raw_codes ∅

/-- Model of `RuffConfig` from `adopt_ruff/models/ruff_config.py`. -/
structure RuffConfig where
  selected_rules : Finset Rule
  ignored_rules : Finset Rule
deriving DecidableEq

/-- The `RuffConfig.all_rules` property: selected union ignored. -/
def RuffConfig.all_rules (c : RuffConfig) : Finset Rule :=
  c.selected_rules ∪ c.ignored_rules

/-- The pure core of `RuffConfig.from_file`: resolve the raw selected and
ignored code sets against the catalog with `_parse_raw_rules`; a failing
resolution propagates. -/
def RuffConfig.from_raw (selected_codes ignored_codes : List String)
    (rules : List Rule) : Option RuffConfig :=
  match _parse_raw_rules selected_codes rules, _parse_raw_rules ignored_codes rules with
  | some s, some i => some ⟨s, i⟩
  | _, _ => none

/-- Fixture: a rule with the given identifying fields and fixed filler for the
remaining attributes. -/
def mkRule (name code linter : String) (fix : FixAvailability) (preview : Bool) :
    Rule :=
  ⟨name, code, linter, "summary", [], fix, "explanation", preview⟩

/-- Fixture: a source location. -/
def sampleLocation : Location := ⟨1, 1⟩

/-- Fixture: a violation of the given rule code. -/
def mkViolation (code : String) : Violation :=
  ⟨(), code, sampleLocation, "file.py", none, sampleLocation, "message", 1,
    "https://docs.astral.sh"⟩

def ruleE501 : Rule := mkRule "line-too-long" "E501" "pycodestyle" FixAvailability.ALWAYS false

def ruleF401 : Rule := mkRule "unused-import" "F401" "Pyflakes" FixAvailability.NOT false

def ruleRUF001 : Rule := mkRule "ambiguous-unicode-string" "RUF001" "Ruff-specific rules" FixAvailability.SOMETIMES false

def ruleRUF002 : Rule := mkRule "ambiguous-unicode-docstring" "RUF002" "Ruff-specific rules" FixAvailability.SOMETIMES false

def ruleB010 : Rule := mkRule "set-attr-with-constant" "B010" "flake8-bugbear" FixAvailability.SOMETIMES true

def ruleA : Rule := mkRule "rule-a" "A001" "linter-z" FixAvailability.NOT false

def ruleB : Rule := mkRule "rule-b" "B001" "linter-a" FixAvailability.NOT false

def ruleC : Rule := mkRule "rule-c" "C001" "linter-b" FixAvailability.NOT false

/-- Fixture: a rule equal to `ruleDupSecond` in every attribute except the
name. -/
def ruleDupFirst : Rule := mkRule "first-name" "E501" "pycodestyle" FixAvailability.ALWAYS false

def ruleDupSecond : Rule := mkRule "second-name" "E501" "pycodestyle" FixAvailability.ALWAYS false

/-- Fixture: five violations of A001 and one each of B001 and C001. -/
def violationsABC : List Violation :=
  List.replicate 5 (mkViolation "A001") ++ [mkViolation "B001", mkViolation "C001"]

theorem lexStep_trans {α : Type} [LinearOrder α] {x y z : α} {p q r : Prop}
    (hpq : lexStep x y p) (hqr : lexStep y z q) (hrest : p → q → r) :
    lexStep x z r := by
  rcases hpq with h | ⟨e, hp⟩
  · rcases hqr with g | ⟨f, _⟩
    · exact Or.inl (lt_trans h g)
    · exact Or.inl (f ▸ h)
  · rcases hqr with g | ⟨f, hq⟩
    · exact Or.inl (e ▸ g)
    · exact Or.inr ⟨e.trans f, hrest hp hq⟩

theorem lexStep_total {α : Type} [LinearOrder α] {x y : α} {p q : Prop}
    (h : x = y → p ∨ q) : lexStep x y p ∨ lexStep y x q := by
  rcases lt_trichotomy x y with hlt | he | hgt
  · exact Or.inl (Or.inl hlt)
  · rcases h he with hp | hq
    · exact Or.inl (Or.inr ⟨he, hp⟩)
    · exact Or.inr (Or.inr ⟨he.symm, hq⟩)
  · exact Or.inr (Or.inl hgt)

theorem app_le_trans : ∀ a b c : Rule × Nat, app_le a b → app_le b c → app_le a c := by
  intro a b c hab hbc
  exact lexStep_trans hab hbc fun h1 h2 =>
    lexStep_trans h1 h2 fun g1 g2 =>
      lexStep_trans g1 g2 fun _ _ => trivial

theorem app_le_total : ∀ a b : Rule × Nat, app_le a b ∨ app_le b a := by
  intro a b
  exact lexStep_total fun _ =>
    lexStep_total fun _ =>
      lexStep_total fun _ => Or.inl trivial

theorem mem_respected_rules {violations : List Violation} {rules : List Rule}
    {configured_rules : Finset Rule} {r : Rule} :
    r ∈ respected_rules violations rules configured_rules ↔
      r ∈ rules ∧ r.code ∉ violations.map Violation.code ∧ r ∉ configured_rules := by
  simp only [respected_rules, Finset.mem_filter, List.mem_toFinset, and_assoc]

theorem mem_autofixable_rules {violations : List Violation} {rules : List Rule}
    {configured_rules : Finset Rule} {isf ip : Bool} {r : Rule} :
    r ∈ autofixable_rules violations rules configured_rules isf ip ↔
      r ∈ rules ∧ r.code ∈ violations.map Violation.code ∧ r ∉ configured_rules ∧
      r.is_fixable = true ∧
      (if ip then true else !r.preview) = true ∧
      (if isf then true else fix_eq_always r) = true := by
  simp only [autofixable_rules, Finset.mem_filter, List.mem_toFinset, and_assoc]

theorem code_to_rule_some {rules : List Rule} {code : String} {r : Rule}
    (h : code_to_rule rules code = some r) : r ∈ rules ∧ r.code = code := by
  unfold code_to_rule at h
  rw [List.getLast?_eq_some_iff] at h
  obtain ⟨ys, hys⟩ := h
  have hmem : r ∈ rules.filter fun rule => decide (rule.code = code) := by
    rw [hys]
    exact List.mem_append_right ys (List.mem_singleton_self r)
  rw [List.mem_filter] at hmem
  exact ⟨hmem.1, by simpa using hmem.2⟩

theorem code_to_rule_eq_none {rules : List Rule} {code : String}
    (h : ∀ r ∈ rules, r.code ≠ code) : code_to_rule rules code = none := by
  unfold code_to_rule
  have : (rules.filter fun rule => decide (rule.code = code)) = [] := by
    rw [List.filter_eq_nil_iff]
    intro a ha
    simpa using h a ha
  rw [this]
  rfl

theorem bucket_pairs_mem {rules : List Rule} {violations : List Violation}
    {codes : List String} {pairs : List (Rule × List Violation)}
    (h : bucket_pairs rules violations codes = some pairs) :
    ∀ p ∈ pairs, ∃ code ∈ codes, code_to_rule rules code = some p.1 ∧
      p.2 = violations.filter fun v => decide (v.code = code) := by
  induction codes generalizing pairs with
  | nil =>
    simp only [bucket_pairs, Option.some.injEq] at h
    subst h
    intro p hp
    simp at hp
  | cons code rest ih =>
    simp only [bucket_pairs] at h
    rcases hc : code_to_rule rules code with _ | rule <;> rw [hc] at h
    · exact absurd h (by simp)
    · rcases hrest : bucket_pairs rules violations rest with _ | prev <;> rw [hrest] at h
      · exact absurd h (by simp)
      · simp only [Option.some.injEq] at h
        subst h
        intro p hp
        rcases List.mem_cons.mp hp with hhead | htail
        · subst hhead
          exact ⟨code, List.mem_cons_self code rest, hc, rfl⟩
        · obtain ⟨c, hcmem, hcr, hcv⟩ := ih hrest p htail
          exact ⟨c, List.mem_cons_of_mem code hcmem, hcr, hcv⟩

theorem bucket_pairs_none {rules : List Rule} {violations : List Violation}
    {codes : List String} {code : String} (hmem : code ∈ codes)
    (h : code_to_rule rules code = none) :
    bucket_pairs rules violations codes = none := by
  induction codes with
  | nil => simp at hmem
  | cons c rest ih =>
    rcases List.mem_cons.mp hmem with hhead | htail
    · subst hhead
      simp [bucket_pairs, h]
    · simp only [bucket_pairs, ih htail]
      rcases code_to_rule rules c with _ | rule <;> rfl

theorem resolve_code_subset {rules : List Rule} {code : String} {s : Finset Rule}
    (h : resolve_code rules code = some s) : s ⊆ rules.toFinset := by
  unfold resolve_code at h
  split at h
  · simp only [Option.some.injEq] at h
    subst h
    intro r hr
    rw [List.mem_toFinset] at hr ⊢
    exact List.mem_of_mem_filter hr
  · rw [Option.map_eq_some'] at h
    obtain ⟨rule, hrule, hs⟩ := h
    subst hs
    intro r hr
    rw [Finset.mem_singleton] at hr
    subst hr
    rw [List.mem_toFinset]
    exact (code_to_rule_some hrule).1

theorem parseFold_acc_subset {rules : List Rule} {codes : List String}
    {acc s : Finset Rule} (h : parseFold rules codes acc = some s) : acc ⊆ s := by
  induction codes generalizing acc with
  | nil =>
    simp only [parseFold, Option.some.injEq] at h
    exact h ▸ Finset.Subset.refl acc
  | cons code rest ih =>
    simp only [parseFold] at h
    rcases hc : resolve_code rules code with _ | c <;> rw [hc] at h
    · exact absurd h (by simp)
    · exact (Finset.subset_union_left).trans (ih h)

theorem parseFold_contrib {rules : List Rule} {codes : List String}
    {acc s : Finset Rule} (h : parseFold rules codes acc = some s) :
    ∀ code ∈ codes, ∃ c, resolve_code rules code = some c ∧ c ⊆ s := by
  induction codes generalizing acc with
  | nil =>
    intro code hmem
    simp at hmem
  | cons c0 rest ih =>
    intro code hmem
    simp only [parseFold] at h
    rcases hc : resolve_code rules c0 with _ | c <;> rw [hc] at h
    · exact absurd h (by simp)
    · rcases List.mem_cons.mp hmem with hhead | htail
      · subst hhead
        exact ⟨c, hc, (Finset.subset_union_right).trans (parseFold_acc_subset h)⟩
      · exact ih h code htail

theorem parseFold_subset {rules : List Rule} {codes : List String}
    {acc s : Finset Rule} (h : parseFold rules codes acc = some s)
    (hacc : acc ⊆ rules.toFinset) : s ⊆ rules.toFinset := by
  induction codes generalizing acc with
  | nil =>
    simp only [parseFold, Option.some.injEq] at h
    exact h ▸ hacc
  | cons code rest ih =>
    simp only [parseFold] at h
    rcases hc : resolve_code rules code with _ | c <;> rw [hc] at h
    · exact absurd h (by simp)
    · exact ih h (Finset.union_subset hacc (resolve_code_subset hc))

theorem parseFold_none {rules : List Rule} {codes : List String} {code : String}
    (hmem : code ∈ codes) (h : resolve_code rules code = none) :
    ∀ acc, parseFold rules codes acc = none := by
  induction codes with
  | nil => simp at hmem
  | cons c rest ih =>
    intro acc
    rcases List.mem_cons.mp hmem with hhead | htail
    · subst hhead
      simp [parseFold, h]
    · simp only [parseFold]
      rcases resolve_code rules c with _ | s
      · rfl
      · exact ih htail _

theorem parse_raw_rules_subset {raw_codes : List String} {rules : List Rule}
    {s : Finset Rule} (h : _parse_raw_rules raw_codes rules = some s) :
    s ⊆ rules.toFinset := by
  unfold _parse_raw_rules at h
  split at h
  · simp only [Option.some.injEq] at h
    exact h ▸ Finset.Subset.refl _
  · exact parseFold_subset h (Finset.empty_subset _)

/-- C1: `respected_rules` returns exactly the catalog rules whose code is hit
by no violation and that are not configured; with no violations the result is
the catalog minus the configured set. -/
theorem respected_rules_characterization :
    ∀ (violations : List Violation) (rules : List Rule) (configured_rules : Finset Rule),
      (∀ r : Rule, r ∈ respected_rules violations rules configured_rules ↔
        r ∈ rules ∧ (∀ v ∈ violations, v.code ≠ r.code) ∧ r ∉ configured_rules) ∧
      respected_rules [] rules configured_rules = rules.toFinset \ configured_rules := by
  intro violations rules configured_rules
  constructor
  · intro r
    rw [mem_respected_rules]
    constructor
    · rintro ⟨h1, h2, h3⟩
      refine ⟨h1, ?_, h3⟩
      intro v hv heq
      exact h2 (List.mem_map.mpr ⟨v, hv, heq⟩)
    · rintro ⟨h1, h2, h3⟩
      refine ⟨h1, ?_, h3⟩
      intro hmem
      obtain ⟨v, hv, heq⟩ := List.mem_map.mp hmem
      exact h2 v hv heq
  · ext r
    rw [mem_respected_rules, Finset.mem_sdiff, List.mem_toFinset]
    simp

/-- C8: with `use_enum_values=True` the two fix-availability tests of
`autofixable_rules` compare the stored string against enum members and always
fail, so the program computes the empty Autofixable set on every input and the
two toggles are inert; in particular the always-fixable, violated,
unconfigured E501 that the spec places in the Autofixable set is never
reported, and the claimed toggle monotonicity holds only vacuously. -/
theorem autofixable_rules_always_empty :
    ∀ (violations : List Violation) (rules : List Rule)
      (configured_rules : Finset Rule) (isf ip : Bool),
      autofixable_rules violations rules configured_rules isf ip = ∅ := by
  intro violations rules configured_rules isf ip
  ext r
  simp [autofixable_rules, Rule.is_fixable]

/-- C9 counterexample: two rules agreeing on the code but differing in the
name are unequal, so equality of rules is not determined by the code alone. -/
theorem rule_eq_code_counterexample :
    ruleDupFirst.code = ruleDupSecond.code ∧ ruleDupFirst ≠ ruleDupSecond := by decide

/-- C9 amended: rule equality is field-wise, as for any frozen pydantic model:
two rules are equal iff all eight attributes agree (so equal rules have equal
codes, but not conversely). -/
theorem rule_eq_iff_all_fields :
    ∀ r1 r2 : Rule, r1 = r2 ↔
      r1.name = r2.name ∧ r1.code = r2.code ∧ r1.linter = r2.linter ∧
      r1.summary = r2.summary ∧ r1.message_formats = r2.message_formats ∧
      r1.fix = r2.fix ∧ r1.explanation = r2.explanation ∧ r1.preview = r2.preview := by
  intro r1 r2
  cases r1
  cases r2
  simp

/-- C3 counterexample: a violation whose code matches no catalog rule makes
`map_rules_to_violations` raise a `KeyError` (modelled as `none`) instead of
classification succeeding. -/
theorem map_rules_to_violations_unknown_code_fails :
    map_rules_to_violations [ruleE501] [mkViolation "ZZZ999"] = none := by decide

/-- C3 amended: a violation whose code matches no rule is invisible to
`respected_rules` and `autofixable_rules`, but `map_rules_to_violations`
(hence `violated_rules` and the classification run) raises a `KeyError` on
it. -/
theorem unknown_code_violation_behavior :
    ∀ (rules : List Rule) (violations : List Violation) (configured_rules : Finset Rule)
      (isf ip : Bool) (v : Violation), v.code ∉ rules.map Rule.code →
      respected_rules (v :: violations) rules configured_rules =
        respected_rules violations rules configured_rules ∧
      autofixable_rules (v :: violations) rules configured_rules isf ip =
        autofixable_rules violations rules configured_rules isf ip ∧
      map_rules_to_violations rules (v :: violations) = none := by
  intro rules violations configured_rules isf ip v hv
  have hcode : ∀ r ∈ rules, r.code ≠ v.code := by
    intro r hr heq
    exact hv (List.mem_map.mpr ⟨r, hr, heq⟩)
  have key : ∀ r ∈ rules,
      (r.code ∈ (v :: violations).map Violation.code ↔
        r.code ∈ violations.map Violation.code) := by
    intro r hr
    simp [hcode r hr]
  refine ⟨?_, ?_, ?_⟩
  · ext r
    rw [mem_respected_rules, mem_respected_rules]
    constructor
    · rintro ⟨h1, h2, h3⟩
      exact ⟨h1, fun hm => h2 ((key r h1).mpr hm), h3⟩
    · rintro ⟨h1, h2, h3⟩
      exact ⟨h1, fun hm => h2 ((key r h1).mp hm), h3⟩
  · ext r
    rw [mem_autofixable_rules, mem_autofixable_rules]
    constructor
    · rintro ⟨h1, h2, h3⟩
      exact ⟨h1, (key r h1).mp h2, h3⟩
    · rintro ⟨h1, h2, h3⟩
      exact ⟨h1, (key r h1).mpr h2, h3⟩
  · show bucket_pairs rules (v :: violations) (distinct_codes (v :: violations)) = none
    exact bucket_pairs_none (by simp [distinct_codes]) (code_to_rule_eq_none hcode)

/-- Witness for unknown_code_violation_behavior at a concrete unknown-code
violation. -/
theorem unknown_code_violation_behavior_witness :
    (mkViolation "ZZZ999").code ∉ [ruleE501].map Rule.code ∧
    map_rules_to_violations [ruleE501] [mkViolation "ZZZ999"] = none :=
  ⟨by decide,
   (unknown_code_violation_behavior [ruleE501] [] ∅ false false
      (mkViolation "ZZZ999") (by decide)).2.2⟩

/-- C4: a non-ALL token that is purely alphabetic or shorter than
`MIN_RULE_CODE_LEN` resolves, without failing, to exactly the catalog rules
whose code with that token stripped from the front is purely numeric. -/
theorem category_token_expansion :
    ∀ (t : String) (rules : List Rule) (r : Rule), t ≠ "ALL" →
      (pyIsAlpha t = true ∨ t.length < MIN_RULE_CODE_LEN) →
      ∃ s, _parse_raw_rules [t] rules = some s ∧
        (r ∈ s ↔ r ∈ rules ∧ pyIsNumeric (codeRemainder r.code t) = true) := by
  intro t rules r hne hcat
  have hall : "ALL" ∉ [t] := by
    simp only [List.mem_singleton]
    exact fun h => hne h.symm
  have hres : resolve_code rules t =
      some (rules.filter fun rule => pyIsNumeric (codeRemainder rule.code t)).toFinset := by
    unfold resolve_code
    rw [if_pos hcat]
  refine ⟨(rules.filter fun rule => pyIsNumeric (codeRemainder rule.code t)).toFinset, ?_, ?_⟩
  · unfold _parse_raw_rules
    rw [if_neg hall]
    simp [parseFold, hres]
  · exact List.mem_toFinset.trans List.mem_filter

/-- Witness for category_token_expansion: resolving RUF against a catalog of
RUF001, RUF002 and B010 yields exactly RUF001 and RUF002. -/
theorem category_token_expansion_witness :
    _parse_raw_rules ["RUF"] [ruleRUF001, ruleRUF002, ruleB010] =
      some {ruleRUF001, ruleRUF002} ∧
    ∃ s, _parse_raw_rules ["RUF"] [ruleRUF001, ruleRUF002, ruleB010] = some s ∧
      (ruleRUF001 ∈ s ↔ ruleRUF001 ∈ [ruleRUF001, ruleRUF002, ruleB010] ∧
        pyIsNumeric (codeRemainder ruleRUF001.code "RUF") = true) :=
  ⟨by decide,
   category_token_expansion "RUF" [ruleRUF001, ruleRUF002, ruleB010] ruleRUF001
     (by decide) (Or.inl (by decide))⟩

/-- C5: the literal token ALL makes `_parse_raw_rules` return the whole
catalog regardless of the other tokens, and a configuration resolved with ALL
in its selected or ignored codes has `all_rules` equal to the full catalog. -/
theorem parse_all_short_circuit :
    (∀ (raw_codes : List String) (rules : List Rule), "ALL" ∈ raw_codes →
      _parse_raw_rules raw_codes rules = some rules.toFinset) ∧
    (∀ (selected_codes ignored_codes : List String) (rules : List Rule)
      (cfg : RuffConfig),
      RuffConfig.from_raw selected_codes ignored_codes rules = some cfg →
      ("ALL" ∈ selected_codes ∨ "ALL" ∈ ignored_codes) →
      cfg.all_rules = rules.toFinset) := by
  have h1 : ∀ (raw_codes : List String) (rules : List Rule), "ALL" ∈ raw_codes →
      _parse_raw_rules raw_codes rules = some rules.toFinset := by
    intro raw rules hall
    unfold _parse_raw_rules
    rw [if_pos hall]
  refine ⟨h1, ?_⟩
  intro sel ign rules cfg hcfg hall
  unfold RuffConfig.from_raw at hcfg
  rcases hsel : _parse_raw_rules sel rules with _ | s <;> rw [hsel] at hcfg
  · exact absurd hcfg (by simp)
  rcases hign : _parse_raw_rules ign rules with _ | i <;> rw [hign] at hcfg
  · exact absurd hcfg (by simp)
  simp only [Option.some.injEq] at hcfg
  subst hcfg
  show s ∪ i = rules.toFinset
  rcases hall with ha | ha
  · have hs : s = rules.toFinset := by
      have h2 := h1 sel rules ha
      rw [hsel] at h2
      exact (Option.some.injEq _ _).mp h2
    subst hs
    exact Finset.union_eq_left.mpr (parse_raw_rules_subset hign)
  · have hi : i = rules.toFinset := by
      have h2 := h1 ign rules ha
      rw [hign] at h2
      exact (Option.some.injEq _ _).mp h2
    subst hi
    exact Finset.union_eq_right.mpr (parse_raw_rules_subset hsel)

/-- Witness for parse_all_short_circuit: ALL beside a token with no matching
rule still yields the full catalog, and a configuration with ALL selected has
the full catalog as all_rules. -/
theorem parse_all_short_circuit_witness :
    _parse_raw_rules ["ALL", "E999"] [ruleE501, ruleF401] =
      some ([ruleE501, ruleF401] : List Rule).toFinset ∧
    RuffConfig.all_rules ⟨([ruleE501] : List Rule).toFinset, {ruleE501}⟩ =
      ([ruleE501] : List Rule).toFinset :=
  ⟨parse_all_short_circuit.1 ["ALL", "E999"] [ruleE501, ruleF401] (by decide),
   parse_all_short_circuit.2 ["ALL"] ["E501"] [ruleE501]
     ⟨([ruleE501] : List Rule).toFinset, {ruleE501}⟩ (by decide) (Or.inl (by decide))⟩

/-- C6: a token treated as an exact code (not ALL, not purely alphabetic, not
shorter than `MIN_RULE_CODE_LEN`) makes the whole resolution fail when no
catalog rule carries that code, and contributes exactly the unique matching
rule when one exists. -/
theorem exact_code_resolution :
    ∀ (raw_codes : List String) (t : String) (rules : List Rule),
      "ALL" ∉ raw_codes → t ∈ raw_codes → pyIsAlpha t = false →
      ¬ t.length < MIN_RULE_CODE_LEN →
      ((∀ r ∈ rules, r.code ≠ t) → _parse_raw_rules raw_codes rules = none) ∧
      (∀ (r : Rule) (s : Finset Rule),
        rules.filter (fun x => decide (x.code = t)) = [r] →
        _parse_raw_rules raw_codes rules = some s → r ∈ s) ∧
      (∀ r : Rule, rules.filter (fun x => decide (x.code = t)) = [r] →
        _parse_raw_rules [t] rules = some {r}) := by
  intro raw t rules hnall hmem halpha hlen
  have hnotcat : ¬(pyIsAlpha t = true ∨ t.length < MIN_RULE_CODE_LEN) := by
    rw [halpha]
    simp [hlen]
  refine ⟨?_, ?_, ?_⟩
  · intro hnone
    have hres : resolve_code rules t = none := by
      unfold resolve_code
      rw [if_neg hnotcat, code_to_rule_eq_none hnone]
      rfl
    unfold _parse_raw_rules
    rw [if_neg hnall]
    exact parseFold_none hmem hres ∅
  · intro r s hfilter hsome
    unfold _parse_raw_rules at hsome
    rw [if_neg hnall] at hsome
    obtain ⟨c, hc, hsub⟩ := parseFold_contrib hsome t hmem
    unfold resolve_code at hc
    rw [if_neg hnotcat] at hc
    unfold code_to_rule at hc
    rw [hfilter] at hc
    have hc2 : some ({r} : Finset Rule) = some c := hc
    rw [Option.some.injEq] at hc2
    exact hsub (hc2 ▸ Finset.mem_singleton_self r)
  · intro r hfilter
    have htn : t ≠ "ALL" := fun h => hnall (h ▸ hmem)
    have hall2 : "ALL" ∉ [t] := by
      simp only [List.mem_singleton]
      exact fun h => htn h.symm
    have hres : resolve_code rules t = some {r} := by
      unfold resolve_code
      rw [if_neg hnotcat]
      unfold code_to_rule
      rw [hfilter]
      rfl
    unfold _parse_raw_rules
    rw [if_neg hall2]
    simp [parseFold, hres]

/-- Witness for exact_code_resolution: the unknown exact code E999 is fatal,
and the exact code E501 resolves to its unique catalog rule. -/
theorem exact_code_resolution_witness :
    _parse_raw_rules ["E999"] [ruleE501, ruleF401] = none ∧
    _parse_raw_rules ["E501"] [ruleE501, ruleF401] = some {ruleE501} :=
  ⟨(exact_code_resolution ["E999"] "E999" [ruleE501, ruleF401]
      (by decide) (by decide) (by decide) (by decide)).1 (by decide),
   (exact_code_resolution ["E501"] "E501" [ruleE501, ruleF401]
      (by decide) (by decide) (by decide) (by decide)).2.2 ruleE501 (by decide)⟩

/-- C10: a successful resolution only ever returns rules of the catalog, and
hence a successfully built configuration has all_rules contained in the
catalog. -/
theorem resolver_subset_catalog :
    (∀ (raw_codes : List String) (rules : List Rule) (s : Finset Rule),
      _parse_raw_rules raw_codes rules = some s → s ⊆ rules.toFinset) ∧
    (∀ (selected_codes ignored_codes : List String) (rules : List Rule)
      (cfg : RuffConfig),
      RuffConfig.from_raw selected_codes ignored_codes rules = some cfg →
      cfg.all_rules ⊆ rules.toFinset) := by
  refine ⟨fun raw rules s h => parse_raw_rules_subset h, ?_⟩
  intro sel ign rules cfg hcfg
  unfold RuffConfig.from_raw at hcfg
  rcases hsel : _parse_raw_rules sel rules with _ | s <;> rw [hsel] at hcfg
  · exact absurd hcfg (by simp)
  rcases hign : _parse_raw_rules ign rules with _ | i <;> rw [hign] at hcfg
  · exact absurd hcfg (by simp)
  simp only [Option.some.injEq] at hcfg
  subst hcfg
  show s ∪ i ⊆ rules.toFinset
  exact Finset.union_subset (parse_raw_rules_subset hsel) (parse_raw_rules_subset hign)

/-- Witness for resolver_subset_catalog at a concrete resolution and a
concrete configuration. -/
theorem resolver_subset_catalog_witness :
    ({ruleE501} : Finset Rule) ⊆ ([ruleE501, ruleF401] : List Rule).toFinset ∧
    RuffConfig.all_rules ⟨{ruleE501}, {ruleE501}⟩ ⊆ ([ruleE501] : List Rule).toFinset :=
  ⟨resolver_subset_catalog.1 ["E501"] [ruleE501, ruleF401] {ruleE501} (by decide),
   resolver_subset_catalog.2 ["E501"] ["E501"] [ruleE501] ⟨{ruleE501}, {ruleE501}⟩
     (by decide)⟩

theorem run_applicable_pairs_codes {rules : List Rule} {violations : List Violation}
    {configured_rules : Finset Rule} {isf ip : Bool} {pairs : List (Rule × Nat)}
    (h : run_applicable_pairs rules violations configured_rules isf ip = some pairs) :
    ∀ r ∈ pairs.map Prod.fst,
      r.code ∉ (configured_rules ∪ respected_rules violations rules configured_rules ∪
        autofixable_rules violations rules configured_rules isf ip).image Rule.code := by
  intro r hr
  unfold run_applicable_pairs at h
  rw [Option.map_eq_some'] at h
  obtain ⟨l, hl, hpairs⟩ := h
  unfold violated_rules at hl
  rw [Option.map_eq_some'] at hl
  obtain ⟨m, _, hfil⟩ := hl
  subst hpairs
  rw [List.map_map, List.mem_map] at hr
  obtain ⟨p, hp, heq⟩ := hr
  rw [← hfil, List.mem_filter] at hp
  have hq := of_decide_eq_true hp.2
  exact heq ▸ hq

/-- C2: Respected, Autofixable and Applicable (the keys of `violated_rules`
called with the union of the configured, respected and autofixable rules
excluded, as in `run`) are pairwise disjoint, and no configured rule appears
in any of them. -/
theorem classification_partition :
    ∀ (rules : List Rule) (violations : List Violation) (configured_rules : Finset Rule)
      (isf ip : Bool) (pairs : List (Rule × Nat)),
      run_applicable_pairs rules violations configured_rules isf ip = some pairs →
      (∀ r : Rule, ¬(r ∈ respected_rules violations rules configured_rules ∧
        r ∈ autofixable_rules violations rules configured_rules isf ip)) ∧
      (∀ r ∈ pairs.map Prod.fst,
        r ∉ respected_rules violations rules configured_rules ∧
        r ∉ autofixable_rules violations rules configured_rules isf ip) ∧
      (∀ c ∈ configured_rules,
        c ∉ respected_rules violations rules configured_rules ∧
        c ∉ autofixable_rules violations rules configured_rules isf ip ∧
        c ∉ pairs.map Prod.fst) := by
  intro rules violations configured_rules isf ip pairs h
  have hexc := run_applicable_pairs_codes h
  refine ⟨?_, ?_, ?_⟩
  · rintro r ⟨hR, hA⟩
    exact (mem_respected_rules.mp hR).2.1 ((mem_autofixable_rules.mp hA).2.1)
  · intro r hr
    constructor
    · intro hR
      exact hexc r hr (Finset.mem_image_of_mem Rule.code
        (Finset.mem_union_left _ (Finset.mem_union_right _ hR)))
    · intro hA
      exact hexc r hr (Finset.mem_image_of_mem Rule.code (Finset.mem_union_right _ hA))
  · intro c hc
    refine ⟨?_, ?_, ?_⟩
    · intro hR
      exact (mem_respected_rules.mp hR).2.2 hc
    · intro hA
      exact (mem_autofixable_rules.mp hA).2.2.1 hc
    · intro hmem
      exact hexc c hmem (Finset.mem_image_of_mem Rule.code
        (Finset.mem_union_left _ (Finset.mem_union_left _ hc)))

/-- Witness for classification_partition: a concrete run with one respected
and one applicable rule. -/
theorem classification_partition_witness :
    run_applicable_pairs [ruleE501, ruleF401] [mkViolation "F401"] ∅ false false =
      some [(ruleF401, 1)] ∧
    ∀ r ∈ ([(ruleF401, 1)] : List (Rule × Nat)).map Prod.fst,
      r ∉ respected_rules [mkViolation "F401"] [ruleE501, ruleF401] ∅ ∧
      r ∉ autofixable_rules [mkViolation "F401"] [ruleE501, ruleF401] ∅ false false :=
  ⟨by decide,
   (classification_partition [ruleE501, ruleF401] [mkViolation "F401"] ∅ false false
      [(ruleF401, 1)] (by decide)).2.1⟩

theorem map_rules_to_violations_counts {rules : List Rule} {violations : List Violation}
    {m : List (Rule × List Violation)}
    (h : map_rules_to_violations rules violations = some m) :
    ∀ p ∈ m, p.2 = violations.filter fun v => decide (v.code = p.1.code) := by
  intro p hp
  obtain ⟨code, _, hcr, hcv⟩ := bucket_pairs_mem h p hp
  have hpc := (code_to_rule_some hcr).2
  rw [hpc]
  exact hcv

/-- C7: each applicable rule is paired with the number of violations whose
code equals its code, and `run` emits the applicable rules sorted by
ascending violation count with ties broken by linter name and then by code
(the order `app_le`). -/
theorem applicable_count_and_order :
    ∀ (rules : List Rule) (violations : List Violation) (configured_rules : Finset Rule)
      (isf ip : Bool) (pairs : List (Rule × Nat)),
      run_applicable_pairs rules violations configured_rules isf ip = some pairs →
      (∀ p ∈ pairs,
        p.2 = (violations.filter fun v => decide (v.code = p.1.code)).length) ∧
      ∃ sorted_pairs : List (Rule × Nat), sorted_pairs.Perm pairs ∧
        List.Sorted app_le sorted_pairs ∧
        run_applicable rules violations configured_rules isf ip =
          some (sorted_pairs.map Prod.fst) := by
  intro rules violations configured_rules isf ip pairs h
  constructor
  · intro p hp
    unfold run_applicable_pairs at h
    rw [Option.map_eq_some'] at h
    obtain ⟨l, hl, hpairs⟩ := h
    unfold violated_rules at hl
    rw [Option.map_eq_some'] at hl
    obtain ⟨m, hm, hfil⟩ := hl
    subst hpairs
    rw [List.mem_map] at hp
    obtain ⟨q, hq, hqp⟩ := hp
    have hqm : q ∈ m := by
      rw [← hfil] at hq
      exact List.mem_of_mem_filter hq
    have hcount := map_rules_to_violations_counts hm q hqm
    subst hqp
    show q.2.length = (violations.filter fun v => decide (v.code = q.1.code)).length
    rw [hcount]
  · refine ⟨List.insertionSort app_le pairs, List.perm_insertionSort app_le pairs, ?_, ?_⟩
    · haveI : IsTotal (Rule × Nat) app_le := ⟨app_le_total⟩
      haveI : IsTrans (Rule × Nat) app_le := ⟨app_le_trans⟩
      exact List.sorted_insertionSort app_le pairs
    · unfold run_applicable
      rw [h]
      rfl

/-- Witness for applicable_count_and_order: with counts 5, 1 and 1 for A001,
B001 and C001 from three different linters, the emitted order is B, C
(linter-name tie-break) and then A. -/
theorem applicable_count_and_order_witness :
    run_applicable_pairs [ruleA, ruleB, ruleC] violationsABC ∅ false false =
      some [(ruleA, 5), (ruleB, 1), (ruleC, 1)] ∧
    run_applicable [ruleA, ruleB, ruleC] violationsABC ∅ false false =
      some [ruleB, ruleC, ruleA] ∧
    ∀ p ∈ ([(ruleA, 5), (ruleB, 1), (ruleC, 1)] : List (Rule × Nat)),
      p.2 = (violationsABC.filter fun v => decide (v.code = p.1.code)).length :=
  ⟨by decide, by decide,
   (applicable_count_and_order [ruleA, ruleB, ruleC] violationsABC ∅ false false
      [(ruleA, 5), (ruleB, 1), (ruleC, 1)] (by decide)).1⟩

end AdoptRuff
